import Mathlib

/-!
Verification of the ingestion / indexing / retrieval core of the mini coding
agent repository.  The Python sources (`ingest.py`, `embed.py`, `retrieve.py`,
`tools.py`, `config.py`) are shallowly embedded below: pure functions become
Lean functions over `List Char` / `List String`, the stateful vector store
becomes a record with explicit state passing, and fallible operations return
`Except` / `Option`.  Numeric vector values are modelled as rationals, since
the embedding backend is an external collaborator that only supplies opaque
numbers.
-/

/-! ## Definitions: the shallow embedding of the source files -/

/-- Whitespace characters matched by the `\s` class of the Python regexes in
`ingest.py` and stripped by `str.lstrip` / `str.strip` (ASCII range). -/
def isPySpace (c : Char) : Bool :=
  c = ' ' || c = '\t' || c = '\n' || c = '\r' || c = '\x0b' || c = '\x0c'

/-- Word characters matched by the `\w` class (ASCII range). -/
def isWordChar (c : Char) : Bool :=
  c.isAlphanum || c = '_'

/-- Helper for `splitLines`: accumulates the current line until a newline. -/
def splitLinesAux (acc : List Char) : List Char → List String
  | [] => [String.mk acc]
  | c :: cs =>
    if c = '\n' then String.mk acc :: splitLinesAux [] cs
    else splitLinesAux (acc ++ [c]) cs

/-- Model of the Python expression `content.split("\n")`. -/
def splitLines (s : String) : List String :=
  splitLinesAux [] s.data

/-- Model of the Python expression `"\n".join(lines)`. -/
def joinLines : List String → String
  | [] => ""
  | [l] => l
  | l :: l2 :: ls => l ++ "\n" ++ joinLines (l2 :: ls)

/-- A string that contains no newline character, as every element produced by
`splitLines` does. -/
def noNl (s : String) : Prop := '\n' ∉ s.data

/-- Sum of `len(line) + 1` over a list of lines: the running character counter
maintained by `chunk_by_size` in `ingest.py`. -/
def charSum (ls : List String) : Nat :=
  (ls.map (fun l => l.length + 1)).sum

/-- Model of the `CodeChunk` dataclass of `ingest.py`: a labeled span of a
source file with one-based inclusive line numbers. -/
structure CodeChunk where
  file_path : String
  content : String
  start_line : Nat
  end_line : Nat
  chunk_type : String
deriving DecidableEq, Inhabited

/-- Number of leading whitespace characters: both `len(match.group(1))` and
`len(line) - len(line.lstrip())` in the source. -/
def leadingWs : List Char → Nat
  | [] => 0
  | c :: cs => if isPySpace c then leadingWs cs + 1 else 0

/-- Drops the maximal run of leading whitespace characters. -/
def dropWs : List Char → List Char
  | [] => []
  | c :: cs => if isPySpace c then dropWs cs else c :: cs

/-- Matches a literal keyword at the head of the character list and returns
the remainder. -/
def dropKeyword : List Char → List Char → Option (List Char)
  | [], cs => some cs
  | _ :: _, [] => none
  | k :: ks, c :: cs => if c = k then dropKeyword ks cs else none

/-- After zero or more further whitespace characters there is a word
character: the tail of `\s+\w`. -/
def wordAfterWs : List Char → Bool
  | [] => false
  | c :: cs => if isPySpace c then wordAfterWs cs else isWordChar c

/-- Matches `\s+\w`: at least one whitespace character, then a word
character. -/
def wsThenWord : List Char → Bool
  | [] => false
  | c :: cs => isPySpace c && wordAfterWs cs

/-- Matches `def\s+\w` at the head of the character list. -/
def matchDefKw (cs : List Char) : Bool :=
  match dropKeyword ("def".data) cs with
  | some rest => wsThenWord rest
  | none => false

/-- Matches `async\s+def\s+\w` at the head of the character list. -/
def matchAsyncDef (cs : List Char) : Bool :=
  match dropKeyword ("async".data) cs with
  | some rest =>
    match rest with
    | [] => false
    | c :: cs2 => isPySpace c && matchDefKw (dropWs cs2)
  | none => false

/-- Model of `func_pattern.match(line)` being truthy. -/
def funcMatch (line : String) : Bool :=
  matchAsyncDef (dropWs line.data) || matchDefKw (dropWs line.data)

/-- Model of `class_pattern.match(line)` being truthy. -/
def classMatch (line : String) : Bool :=
  match dropKeyword ("class".data) (dropWs line.data) with
  | some rest => wsThenWord rest
  | none => false

/-- A line starting a new definition chunk. -/
def isDefLine (line : String) : Bool :=
  funcMatch line || classMatch line

/-- Model of `len(line) - len(line.lstrip())`, and of the length of the
leading-whitespace capture group of the regexes. -/
def indentOf (line : String) : Nat :=
  leadingWs line.data

/-- Model of `line.strip() == ""`. -/
def isBlankLine (line : String) : Bool :=
  line.data.all isPySpace

/-- The fused chunking loop of `extract_python_chunks`: `rem` are the
unprocessed lines, `i` is the zero-based index of the next line, `curStart`
the one-based start line of the chunk accumulated in `cur`, `curType` its
type, and `mode = some b` means the body-collection loop is running with
definition indentation `b`. -/
def pyScan (fp : String) (rem : List String) (i curStart : Nat)
    (curType : String) (cur : List String) (mode : Option Nat) : List CodeChunk :=
  match rem with
  | [] =>
    if cur = [] then [] else [⟨fp, joinLines cur, curStart, i, curType⟩]
  | l :: rest =>
    match mode with
    | some b =>
      if isBlankLine l then
        pyScan fp rest (i + 1) curStart curType (cur ++ [l]) (some b)
      else if indentOf l ≤ b ∧ (isDefLine l = true ∨ indentOf l < b) then
        if isDefLine l then
          (if cur = [] then [] else [⟨fp, joinLines cur, curStart, i, curType⟩])
            ++ pyScan fp rest (i + 1) (i + 1)
                (if funcMatch l then "function" else "class") [l] (some (indentOf l))
        else
          pyScan fp rest (i + 1) curStart curType (cur ++ [l]) none
      else
        pyScan fp rest (i + 1) curStart curType (cur ++ [l]) (some b)
    | none =>
      if isDefLine l then
        (if cur = [] then [] else [⟨fp, joinLines cur, curStart, i, curType⟩])
          ++ pyScan fp rest (i + 1) (i + 1)
              (if funcMatch l then "function" else "class") [l] (some (indentOf l))
      else
        pyScan fp rest (i + 1) curStart curType (cur ++ [l]) none

/-- Model of `extract_python_chunks(content, file_path)` from `ingest.py`. -/
def extract_python_chunks (content : String) (fp : String) : List CodeChunk :=
  pyScan fp (splitLines content) 0 1 "block" [] none

/-- The line ranges of the chunk list, read left to right, tile the interval
`a .. n` exactly: each chunk starts where the previous one stopped plus one,
ranges are well formed, and the last chunk ends at `n`. -/
def coversLines : Nat → Nat → List CodeChunk → Bool
  | a, n, [] => a == n + 1
  | a, n, c :: rest =>
    (c.start_line == a) && (a ≤ c.end_line) && coversLines (c.end_line + 1) n rest

/-- Configured target chunk size in characters (`CHUNK_SIZE` in `config.py`). -/
def CHUNK_SIZE : Nat := 1500

/-- Configured overlap budget in characters (`CHUNK_OVERLAP` in `config.py`). -/
def CHUNK_OVERLAP : Nat := 200

/-- The overlap scan of `chunk_by_size` (lines 173-179 of `ingest.py`): walk
the just-emitted chunk lines in reverse, prepending each line while the
condition `overlap_chars + len(ln) > CHUNK_OVERLAP` does not hold, and
accumulate `len(ln) + 1` per kept line.  The argument list is the reversed
chunk; the result is `(overlap_lines, overlap_chars)`. -/
def overlapAux (ov : Nat) (acc : List String) (accChars : Nat) :
    List String → List String × Nat
  | [] => (acc, accChars)
  | ln :: rest =>
    if accChars + ln.length > ov then (acc, accChars)
    else overlapAux ov (ln :: acc) (accChars + ln.length + 1) rest

/-- The overlap window seeded into the next chunk: `overlap_lines` computed
from a chunk given as its line list. -/
def overlapWindow (ov : Nat) (ls : List String) : List String :=
  (overlapAux ov [] 0 ls.reverse).1

/-- The accumulation loop of `chunk_by_size`: `cur` is `current_chunk`,
`curChars` is `current_chars`, `curStart` is `current_start`, and `i` is the
one-based index of the next line to process. -/
def sizeLoop (fp : String) (target ov : Nat) (cur : List String)
    (curChars curStart i : Nat) : List String → List CodeChunk
  | [] =>
    if cur = [] then [] else [⟨fp, joinLines cur, curStart, i - 1, "block"⟩]
  | l :: rest =>
    if curChars + l.length + 1 ≥ target then
      let full := cur ++ [l]
      let p := overlapAux ov [] 0 full.reverse
      ⟨fp, joinLines full, curStart, i, "block"⟩
        :: sizeLoop fp target ov p.1 p.2 (i - p.1.length + 1) (i + 1) rest
    else
      sizeLoop fp target ov (cur ++ [l]) (curChars + l.length + 1) curStart (i + 1) rest

/-- `chunk_by_size` with explicit target size and overlap budget. -/
def chunkBySizeWith (target ov : Nat) (content : String) (fp : String) : List CodeChunk :=
  sizeLoop fp target ov [] 0 1 1 (splitLines content)

/-- Model of `chunk_by_size(content, file_path)` from `ingest.py`, at the
configured constants. -/
def chunk_by_size (content : String) (fp : String) : List CodeChunk :=
  chunkBySizeWith CHUNK_SIZE CHUNK_OVERLAP content fp

/-- Index of the last dot in a component, if any (`name.rfind`). -/
def lastDotIdx : List Char → Option Nat
  | [] => none
  | c :: cs =>
    match lastDotIdx cs with
    | some j => some (j + 1)
    | none => if c = '.' then some 0 else none

/-- The final path component: everything after the last slash. -/
def lastComponent (p : String) : List Char :=
  p.data.foldl (fun acc c => if c = '/' then [] else acc ++ [c]) []

/-- Model of `Path(file_path).suffix`: the extension of the final component,
which is empty unless the last dot sits strictly inside the name. -/
def pathSuffix (p : String) : String :=
  let name := lastComponent p
  match lastDotIdx name with
  | some j => if 0 < j ∧ j < name.length - 1 then String.mk (name.drop j) else ""
  | none => ""

/-- Model of `str.lower()` over the characters of a string. -/
def lowerStr (s : String) : String :=
  String.mk (s.data.map Char.toLower)

/-- Model of `chunk_code(content, file_path)` from `ingest.py`: structural
chunking for `.py` files, with a fallback to fixed-size chunking when the
structural pass returned one oversized chunk; fixed-size chunking otherwise. -/
def chunk_code (content : String) (fp : String) : List CodeChunk :=
  if lowerStr (pathSuffix fp) = ".py" then
    if (extract_python_chunks content fp).length = 1 ∧
        (extract_python_chunks content fp).headI.content.length > CHUNK_SIZE * 2 then
      chunk_by_size content fp
    else
      extract_python_chunks content fp
  else
    chunk_by_size content fp

/-- Model of the Python stable sort `matching_chunks.sort(key=lambda c:
c.start_line)`: insertion sort with a total preorder on the key is a stable
sort. -/
def sortByStart (cs : List CodeChunk) : List CodeChunk :=
  cs.insertionSort (fun a b => a.start_line ≤ b.start_line)

/-- The de-overlap loop of `get_file_context` (lines 127-139 of
`retrieve.py`): walk chunks keeping `last_end`; a chunk starting past
`last_end` is taken verbatim, a chunk reaching past `last_end` contributes
only its lines after `last_end`, and a fully covered chunk is dropped. -/
def combineChunks (lastEnd : Nat) : List CodeChunk → List String
  | [] => []
  | c :: rest =>
    if c.start_line > lastEnd then
      c.content :: combineChunks (max lastEnd c.end_line) rest
    else if c.end_line > lastEnd then
      let lines := splitLines c.content
      let newStart := lastEnd - c.start_line + 1
      if newStart < lines.length then
        joinLines (lines.drop newStart) :: combineChunks (max lastEnd c.end_line) rest
      else
        combineChunks (max lastEnd c.end_line) rest
    else
      combineChunks (max lastEnd c.end_line) rest

/-- Model of `CodeRetriever.get_file_context(file_path)` from `retrieve.py`,
taking the chunk list held by the vector store. -/
def get_file_context (store : List CodeChunk) (fp : String) : Option String :=
  let matching := store.filter (fun c => c.file_path == fp)
  if matching = [] then none
  else some (joinLines (combineChunks 0 (sortByStart matching)))

/-! ### The vector store (`VectorStore` in `embed.py`)

The embedding model is an external collaborator: `model.encode` is passed in
as a function, and vector values are rationals.  The FAISS `IndexFlatIP`
structure is an exact inner-product index over the stored vectors, so it is
modelled by the vector rows it holds. -/

/-- In-memory state of `VectorStore`: `chunks`, the optional `embeddings`
matrix, and the optional FAISS index (`None` when FAISS is unavailable). -/
structure VectorStore where
  chunks : List CodeChunk
  embeddings : Option (List (List ℚ))
  index : Option (List (List ℚ))
deriving DecidableEq

/-- A freshly constructed `VectorStore()`: `__init__` leaves `chunks = []`,
`embeddings = None`, `index = None`. -/
def emptyStore : VectorStore :=
  ⟨[], none, none⟩

/-- On-disk layout of a saved store: `embeddings.npy` (present only when the
store held embeddings), `chunks.json` (always written), and `index.faiss`
(present only when a FAISS index existed). -/
structure SavedStore where
  embeddings : Option (List (List ℚ))
  chunksData : Option (List CodeChunk)
  faissIndex : Option (List (List ℚ))
deriving DecidableEq

/-- Model of `VectorStore.save(name)` from `embed.py`: writes the embeddings
when present, always writes the chunk records with their five fields, and
writes the FAISS index when present. -/
def VectorStore.save (s : VectorStore) : SavedStore :=
  ⟨s.embeddings, some s.chunks, s.index⟩

/-- Model of `VectorStore.load(name)` from `embed.py` on an existing saved
directory: each file that exists replaces the corresponding field, fields
without a file are left untouched. -/
def VectorStore.load (s : VectorStore) (saved : SavedStore) : VectorStore :=
  let s1 := match saved.embeddings with
    | some e => { s with embeddings := some e }
    | none => s
  let s2 := match saved.chunksData with
    | some cd => { s1 with chunks := cd }
    | none => s1
  match saved.faissIndex with
  | some fi => { s2 with index := some fi }
  | none => s2

/-- Model of `VectorStore.embed_chunks(chunks)` from `embed.py`: texts are
built as `File: path` plus content and encoded by the external model into
one vector per chunk; `self.chunks` and `self.embeddings` are assigned
first, and only then is the FAISS index initialised from
`embeddings.shape[1]`.  For an empty chunk list the encoder output is a
one-dimensional empty array, so reading `shape[1]` raises
`IndexError: tuple index out of range` after the first two assignments and
before any index is installed.  The result is the post-call store paired
with the raised error, if any. -/
def VectorStore.embed_chunks (s : VectorStore) (encode : String → List ℚ)
    (chunks : List CodeChunk) : VectorStore × Option String :=
  let embs := chunks.map (fun c => encode ("File: " ++ c.file_path ++ "\n" ++ c.content))
  if chunks = [] then
    ({ s with chunks := chunks, embeddings := some embs },
      some "tuple index out of range")
  else
    ({ s with chunks := chunks, embeddings := some embs, index := some embs }, none)

/-- Inner product of two vectors, as in `np.dot`. -/
def dotQ (a b : List ℚ) : ℚ :=
  (List.zipWith (fun x y => x * y) a b).sum

/-- Model of `np.argsort(v)`: the indices of `v` ordered by nondecreasing
value. -/
def argsortQ (v : List ℚ) : List Nat :=
  List.insertionSort (fun a b => v.getD a 0 ≤ v.getD b 0) (List.range v.length)

/-- Model of the Python slice `xs[-k:]` for a nonnegative `k`: the whole
list when `k = 0`, otherwise the last `k` elements. -/
def negSlice (k : Nat) (xs : List Nat) : List Nat :=
  if k = 0 then xs else xs.drop (xs.length - k)

/-- The numpy fallback branch of `VectorStore.search`: brute-force inner
products, `np.argsort(similarities)[-top_k:][::-1]`, then chunk lookup. -/
def searchBrute (chunks : List CodeChunk) (sims : List ℚ) (top_k : Nat) :
    List (CodeChunk × ℚ) :=
  ((negSlice top_k (argsortQ sims)).reverse).map
    (fun j => (chunks.getD j default, sims.getD j 0))

/-- Model of the exact FAISS `IndexFlatIP` search over the stored rows: the
`k` highest inner products with the query, best first. -/
def faissSearch (chunks : List CodeChunk) (rows : List (List ℚ)) (qv : List ℚ)
    (k : Nat) : List (CodeChunk × ℚ) :=
  let sims := rows.map (fun r => dotQ r qv)
  ((argsortQ sims).reverse.take k).map
    (fun j => (chunks.getD j default, sims.getD j 0))

/-- Model of `VectorStore.search(query, top_k)` from `embed.py`.  The query
is given as its already encoded vector, since encoding is performed by the
external model.  Raises when no embeddings are loaded or no chunks are held;
otherwise searches the FAISS index when present and falls back to the numpy
scan. -/
def VectorStore.search (s : VectorStore) (qv : List ℚ) (top_k : Nat) :
    Except String (List (CodeChunk × ℚ)) :=
  if s.embeddings.isNone ∨ s.chunks.length = 0 then
    .error "No embeddings loaded. Run embed_chunks first or load from disk."
  else
    match s.index with
    | some rows => .ok (faissSearch s.chunks rows qv (min top_k s.chunks.length))
    | none =>
      match s.embeddings with
      | some embs => .ok (searchBrute s.chunks (embs.map (fun r => dotQ r qv)) top_k)
      | none => .error "No embeddings loaded. Run embed_chunks first or load from disk."

/-- Model of `estimate_tokens(text)` from `tools.py`. -/
def estimate_tokens (text : String) : Nat :=
  text.length / 4

/-- Model of the Python slice `content[:500]`, by code points. -/
def takeChars (s : String) (n : Nat) : String :=
  String.mk (s.data.take n)

/-- The filtering loop of `CodeRetriever.retrieve` (lines 48-69 of
`retrieve.py`): `seen` holds the content fingerprints already encountered
(the hash of the first 500 characters, modelled by the prefix itself),
`acc` the accepted results, `total` the running token estimate.  A chunk
whose fingerprint was seen is skipped; otherwise its fingerprint is
recorded, then a chunk that would exceed the budget is skipped; an accepted
chunk is appended and the loop stops once `top_k` results are held. -/
def retrieveLoop (top_k max_tokens : Nat) (seen : List String)
    (acc : List (CodeChunk × ℚ)) (total : Nat) :
    List (CodeChunk × ℚ) → List (CodeChunk × ℚ)
  | [] => acc
  | (c, sc) :: rest =>
    if takeChars c.content 500 ∈ seen then
      retrieveLoop top_k max_tokens seen acc total rest
    else
      let seen' := takeChars c.content 500 :: seen
      if total + estimate_tokens c.content > max_tokens then
        retrieveLoop top_k max_tokens seen' acc total rest
      else
        let acc' := acc ++ [(c, sc)]
        if acc'.length ≥ top_k then acc'
        else retrieveLoop top_k max_tokens seen' acc' (total + estimate_tokens c.content) rest

/-- Model of `CodeRetriever.retrieve` applied to the `(chunk, score)` list
returned by `VectorStore.search` (which the source obtains with
`top_k * 2` requested candidates). -/
def retrieveFrom (results : List (CodeChunk × ℚ)) (top_k max_tokens : Nat) :
    List (CodeChunk × ℚ) :=
  retrieveLoop top_k max_tokens [] [] 0 results

/-- Supported extensions (`SUPPORTED_EXTENSIONS` in `config.py`). -/
def SUPPORTED_EXTENSIONS : List String :=
  [".py", ".ts", ".js", ".jsx", ".tsx", ".java", ".go", ".rs", ".cpp", ".c", ".h"]

/-- Maximum processable file size in bytes (`MAX_FILE_SIZE` in `config.py`). -/
def MAX_FILE_SIZE : Nat := 100 * 1024

/-- A file encountered by the repository walk, abstracting `os.walk`: its
repository-relative path, its byte size if `stat` succeeds, and the result
of `read_file_content` (`none` when the file cannot be read or decoded). -/
structure RepoFile where
  relPath : String
  size : Option Nat
  readResult : Option String
deriving DecidableEq

/-- Model of `is_supported_file(path)` from `tools.py`. -/
def is_supported_file (f : RepoFile) : Bool :=
  SUPPORTED_EXTENSIONS.contains (lowerStr (pathSuffix f.relPath))

/-- Model of `is_file_too_large(path)` from `tools.py`: an `OSError` from
`stat` counts as too large. -/
def is_file_too_large (f : RepoFile) : Bool :=
  match f.size with
  | none => true
  | some n => decide (n > MAX_FILE_SIZE)

/-- Model of `load_files(repo_path)` from `ingest.py` over the walked file
list: keeps supported, size-admissible files whose read produced a truthy
(non-`None`, non-empty) string, yielding `(relative_path, content)`. -/
def load_files (files : List RepoFile) : List (String × String) :=
  files.filterMap (fun f =>
    if ¬ is_supported_file f then none
    else if is_file_too_large f then none
    else
      match f.readResult with
      | none => none
      | some content => if content ≠ "" then some (f.relPath, content) else none)

/-- Model of `ingest_repository(repo_path)` from `ingest.py`: chunk every
loaded file and concatenate. -/
def ingest_repository (files : List RepoFile) : List CodeChunk :=
  ((load_files files).map (fun pr => chunk_code pr.2 pr.1)).flatten

/-- A 50-line Python-like file with one top-level function on lines 5-20
and one top-level class on lines 25-45, with top-level statements on lines
1-4, 21-24, and 46-50. -/
def c2File : String :=
  joinLines (["a = 1", "b = 2", "c = 3", "d = 4", "def f():"]
    ++ List.replicate 15 "    pass"
    ++ ["e = 5", "f = 6", "g = 7", "h = 8", "class C:"]
    ++ List.replicate 20 "    pass"
    ++ ["i = 9", "j = 10", "k = 11", "l = 12", "m = 13"])

/-- A line the body-collection loop of `extract_python_chunks` consumes
below a definition indented by `b` characters: blank, deeper indented, or
non-blank at exactly indentation `b` without starting a definition. -/
def innerLineOk (b : Nat) (l : String) : Prop :=
  isBlankLine l = true ∨ b < indentOf l ∨
    (indentOf l = b ∧ isDefLine l = false)

/-- The shape of every function or class chunk the chunker emits: its
definition line, then a run of body-collected lines, then an optional
absorbed tail.  The tail, when present, is opened by the non-blank
non-definition line strictly less indented than the definition that ended
body collection, and it contains no definition line, because any
definition line after that point starts a new chunk. -/
def defChunkLines (ls : List String) : Prop :=
  ∃ l₀ inner tail, ls = l₀ :: inner ++ tail ∧ isDefLine l₀ = true ∧
    (∀ l ∈ inner, innerLineOk (indentOf l₀) l) ∧
    (tail = [] ∨ ∃ t₀ ts, tail = t₀ :: ts ∧ isBlankLine t₀ = false ∧
      isDefLine t₀ = false ∧ indentOf t₀ < indentOf l₀ ∧
      (∀ l ∈ ts, isDefLine l = false))

/-- A chunk whose first line starts a definition. -/
def startsWithDef (c : CodeChunk) : Prop :=
  ∃ l₀ rest, splitLines c.content = l₀ :: rest ∧ isDefLine l₀ = true

/-- The invariant the chunk being accumulated by `pyScan` satisfies
whenever its type is `function` or `class`: while body collection is
active (`mode = some b`) the chunk is its definition line plus
body-collected lines and `b` is the definition indentation; after body
collection has been left (`mode = none`) the chunk additionally carries a
non-empty absorbed tail. -/
def scanInv (ty : String) (cur : List String) (mode : Option Nat) : Prop :=
  (ty = "function" ∨ ty = "class") →
    match mode with
    | some b => ∃ l₀ inner, cur = l₀ :: inner ∧ isDefLine l₀ = true ∧
        b = indentOf l₀ ∧ ∀ l ∈ inner, innerLineOk (indentOf l₀) l
    | none => ∃ l₀ inner t₀ ts, cur = l₀ :: inner ++ t₀ :: ts ∧
        isDefLine l₀ = true ∧
        (∀ l ∈ inner, innerLineOk (indentOf l₀) l) ∧
        isBlankLine t₀ = false ∧ isDefLine t₀ = false ∧
        indentOf t₀ < indentOf l₀ ∧
        (∀ l ∈ ts, isDefLine l = false)

/-! ## Theorems -/

theorem str_data_append (s t : String) : (s ++ t).data = s.data ++ t.data := rfl

theorem str_mk_data (s : String) : String.mk s.data = s := rfl

theorem splitLinesAux_ne_nil (acc : List Char) (cs : List Char) :
    splitLinesAux acc cs ≠ [] := by
  induction cs generalizing acc with
  | nil => simp [splitLinesAux]
  | cons c cs ih =>
    simp only [splitLinesAux]
    split <;> simp [ih]

theorem splitLinesAux_no_nl (acc : List Char) (cs : List Char)
    (hacc : '\n' ∉ acc) : ∀ x ∈ splitLinesAux acc cs, noNl x := by
  induction cs generalizing acc with
  | nil =>
    intro x hx
    simp [splitLinesAux] at hx
    subst hx
    exact hacc
  | cons c cs ih =>
    intro x hx
    by_cases hc : c = '\n'
    · subst hc
      simp only [splitLinesAux, if_pos rfl, List.mem_cons] at hx
      cases hx with
      | head => exact hacc
      | tail _ h2 => exact ih [] (by simp) x h2
    · simp only [splitLinesAux, if_neg hc] at hx
      refine ih (acc ++ [c]) ?_ x hx
      simp [hacc, Ne.symm hc]

theorem splitLinesAux_of_no_nl (acc : List Char) (cs : List Char)
    (h : '\n' ∉ cs) : splitLinesAux acc cs = [String.mk (acc ++ cs)] := by
  induction cs generalizing acc with
  | nil => simp [splitLinesAux]
  | cons c cs ih =>
    have hc : ¬ (c = '\n') := by rintro rfl; exact h (by simp)
    calc splitLinesAux acc (c :: cs)
        = splitLinesAux (acc ++ [c]) cs := by
          simp [splitLinesAux, hc]
      _ = [String.mk ((acc ++ [c]) ++ cs)] := ih _ (fun hm => h (by simp [hm]))
      _ = [String.mk (acc ++ c :: cs)] := by simp

theorem splitLinesAux_append_nl (acc : List Char) (cs ds : List Char)
    (h : '\n' ∉ cs) :
    splitLinesAux acc (cs ++ '\n' :: ds) =
      String.mk (acc ++ cs) :: splitLinesAux [] ds := by
  induction cs generalizing acc with
  | nil => simp [splitLinesAux]
  | cons c cs ih =>
    have hc : ¬ (c = '\n') := by rintro rfl; exact h (by simp)
    calc splitLinesAux acc ((c :: cs) ++ '\n' :: ds)
        = splitLinesAux (acc ++ [c]) (cs ++ '\n' :: ds) := by
          simp [splitLinesAux, hc]
      _ = String.mk ((acc ++ [c]) ++ cs) :: splitLinesAux [] ds :=
          ih _ (fun hm => h (by simp [hm]))
      _ = String.mk (acc ++ c :: cs) :: splitLinesAux [] ds := by simp

theorem joinLines_cons_of_ne_nil (x : String) (l : List String) (h : l ≠ []) :
    joinLines (x :: l) = x ++ "\n" ++ joinLines l := by
  cases l with
  | nil => exact absurd rfl h
  | cons y ys => rfl

theorem joinLines_splitLinesAux (acc : List Char) (cs : List Char) :
    joinLines (splitLinesAux acc cs) = String.mk (acc ++ cs) := by
  induction cs generalizing acc with
  | nil => simp [splitLinesAux, joinLines]
  | cons c cs ih =>
    simp only [splitLinesAux]
    split
    · rename_i hc
      subst hc
      rw [joinLines_cons_of_ne_nil _ _ (splitLinesAux_ne_nil [] cs), ih []]
      apply String.ext
      simp [str_data_append]
    · rw [ih (acc ++ [c])]
      simp

theorem joinLines_splitLines (s : String) : joinLines (splitLines s) = s := by
  have := joinLines_splitLinesAux [] s.data
  simpa [splitLines] using this

theorem splitLines_no_nl (s : String) : ∀ x ∈ splitLines s, noNl x :=
  splitLinesAux_no_nl [] s.data (by simp)

theorem splitLines_ne_nil (s : String) : splitLines s ≠ [] :=
  splitLinesAux_ne_nil [] s.data

theorem joinLines_append (xs ys : List String) (hx : xs ≠ []) (hy : ys ≠ []) :
    joinLines (xs ++ ys) = joinLines xs ++ "\n" ++ joinLines ys := by
  induction xs with
  | nil => exact absurd rfl hx
  | cons a as ih =>
    cases as with
    | nil =>
      simpa [joinLines] using (joinLines_cons_of_ne_nil a ys hy)
    | cons b bs =>
      rw [List.cons_append,
        joinLines_cons_of_ne_nil a ((b :: bs) ++ ys) (by simp),
        joinLines_cons_of_ne_nil a (b :: bs) (by simp),
        ih (by simp)]
      simp [String.append_assoc]

theorem splitLines_joinLines (xs : List String) (hx : xs ≠ [])
    (h : ∀ x ∈ xs, noNl x) : splitLines (joinLines xs) = xs := by
  induction xs with
  | nil => exact absurd rfl hx
  | cons a as ih =>
    cases as with
    | nil =>
      have ha : '\n' ∉ a.data := h a (by simp)
      simp only [joinLines, splitLines]
      rw [splitLinesAux_of_no_nl [] a.data ha]
      simp [str_mk_data]
    | cons b bs =>
      have ha : '\n' ∉ a.data := h a (by simp)
      rw [joinLines_cons_of_ne_nil a (b :: bs) (by simp)]
      simp only [splitLines, str_data_append]
      have hdata : a.data ++ ("\n" : String).data ++ (joinLines (b :: bs)).data
          = a.data ++ '\n' :: (joinLines (b :: bs)).data := by simp
      rw [hdata, splitLinesAux_append_nl [] a.data _ ha]
      have := ih (by simp) (fun x hx2 => h x (by simp [hx2]))
      simp only [splitLines] at this
      rw [this]
      simp [str_mk_data]

theorem str_length_append (s t : String) : (s ++ t).length = s.length + t.length := by
  show (s.data ++ t.data).length = s.data.length + t.data.length
  simp

theorem joinLines_length_succ (xs : List String) (hx : xs ≠ []) :
    (joinLines xs).length + 1 = charSum xs := by
  induction xs with
  | nil => exact absurd rfl hx
  | cons a as ih =>
    cases as with
    | nil => simp [joinLines, charSum]
    | cons b bs =>
      rw [joinLines_cons_of_ne_nil a (b :: bs) (by simp)]
      rw [str_length_append, str_length_append]
      have hnl : ("\n" : String).length = 1 := rfl
      have := ih (by simp)
      simp only [charSum, List.map_cons, List.sum_cons] at this ⊢
      omega

theorem pyScan_spec (fp : String) (rem : List String) : ∀ (i curStart : Nat)
    (curType : String) (cur : List String) (mode : Option Nat),
    (cur = [] → curStart = i + 1) → (cur ≠ [] → curStart ≤ i) →
    coversLines curStart (i + rem.length) (pyScan fp rem i curStart curType cur mode) = true ∧
    joinLines ((pyScan fp rem i curStart curType cur mode).map CodeChunk.content)
      = joinLines (cur ++ rem) ∧
    ((cur ≠ [] ∨ rem ≠ []) → pyScan fp rem i curStart curType cur mode ≠ []) ∧
    (∀ c ∈ pyScan fp rem i curStart curType cur mode, c.file_path = fp) := by
  induction rem with
  | nil =>
    intro i s ty cur mode h0 h1
    by_cases hc : cur = []
    · subst hc
      simp [pyScan, coversLines, h0 rfl, joinLines]
    · have hs := h1 hc
      refine ⟨?_, ?_, ?_, ?_⟩
      · simp [pyScan, hc, coversLines, hs]
      · simp [pyScan, hc, joinLines]
      · simp [pyScan, hc]
      · simp [pyScan, hc]
  | cons l rest ih =>
    intro i s ty cur mode h0 h1
    have hstep : ∀ (mode' : Option Nat),
        coversLines s (i + (l :: rest).length)
          (pyScan fp rest (i + 1) s ty (cur ++ [l]) mode') = true ∧
        joinLines ((pyScan fp rest (i + 1) s ty (cur ++ [l]) mode').map CodeChunk.content)
          = joinLines (cur ++ l :: rest) ∧
        ((cur ≠ [] ∨ l :: rest ≠ []) → pyScan fp rest (i + 1) s ty (cur ++ [l]) mode' ≠ []) ∧
        (∀ c ∈ pyScan fp rest (i + 1) s ty (cur ++ [l]) mode', c.file_path = fp) := by
      intro mode'
      have h0' : cur ++ [l] = [] → s = (i + 1) + 1 := by simp
      have h1' : cur ++ [l] ≠ [] → s ≤ i + 1 := by
        intro _
        by_cases hc : cur = []
        · have := h0 hc; omega
        · have := h1 hc; omega
      have := ih (i + 1) s ty (cur ++ [l]) mode' h0' h1'
      refine ⟨?_, ?_, ?_, this.2.2.2⟩
      · rw [show i + (l :: rest).length = (i + 1) + rest.length from by simp; omega]
        exact this.1
      · rw [this.2.1]
        simp
      · intro _
        exact this.2.2.1 (Or.inl (by simp))
    have hdef :
        coversLines s (i + (l :: rest).length)
          ((if cur = [] then ([] : List CodeChunk)
              else [CodeChunk.mk fp (joinLines cur) s i ty])
            ++ pyScan fp rest (i + 1) (i + 1)
                (if funcMatch l then "function" else "class") [l] (some (indentOf l))) = true ∧
        joinLines ((((if cur = [] then ([] : List CodeChunk)
              else [CodeChunk.mk fp (joinLines cur) s i ty])
            ++ pyScan fp rest (i + 1) (i + 1)
                (if funcMatch l then "function" else "class") [l]
                (some (indentOf l))).map CodeChunk.content))
          = joinLines (cur ++ l :: rest) ∧
        ((cur ≠ [] ∨ l :: rest ≠ []) →
          ((if cur = [] then ([] : List CodeChunk)
              else [CodeChunk.mk fp (joinLines cur) s i ty])
            ++ pyScan fp rest (i + 1) (i + 1)
                (if funcMatch l then "function" else "class") [l] (some (indentOf l))) ≠ []) ∧
        (∀ c ∈ ((if cur = [] then ([] : List CodeChunk)
              else [CodeChunk.mk fp (joinLines cur) s i ty])
            ++ pyScan fp rest (i + 1) (i + 1)
                (if funcMatch l then "function" else "class") [l] (some (indentOf l))),
          c.file_path = fp) := by
      have hrec := ih (i + 1) (i + 1) (if funcMatch l then "function" else "class")
        [l] (some (indentOf l)) (by simp) (by simp)
      have hrlen : i + (l :: rest).length = (i + 1) + rest.length := by
        simp
        omega
      by_cases hc : cur = []
      · subst hc
        have hs : s = i + 1 := h0 rfl
        subst hs
        rw [if_pos rfl]
        simp only [List.nil_append]
        refine ⟨?_, ?_, ?_, hrec.2.2.2⟩
        · rw [hrlen]
          exact hrec.1
        · rw [hrec.2.1]
          simp
        · intro _
          exact hrec.2.2.1 (by simp)
      · have hs := h1 hc
        have hne := hrec.2.2.1 (by simp)
        rw [if_neg hc]
        simp only [List.cons_append, List.nil_append]
        refine ⟨?_, ?_, ?_, ?_⟩
        · rw [hrlen]
          simp [coversLines, hs, hrec.1]
        · have hcont : (CodeChunk.mk fp (joinLines cur) s i ty).content
              = joinLines cur := rfl
          simp only [List.map_cons, hcont]
          rw [joinLines_cons_of_ne_nil _ _ (by simpa using hne), hrec.2.1,
            joinLines_append cur (l :: rest) hc (by simp)]
          simp
        · simp
        · intro c hm
          rcases List.mem_cons.mp hm with rfl | hm2
          · rfl
          · exact hrec.2.2.2 c hm2
    cases mode with
    | none =>
      by_cases hd : isDefLine l
      · have hgoal : pyScan fp (l :: rest) i s ty cur none
            = (if cur = [] then ([] : List CodeChunk)
                else [CodeChunk.mk fp (joinLines cur) s i ty])
              ++ pyScan fp rest (i + 1) (i + 1)
                  (if funcMatch l then "function" else "class") [l]
                  (some (indentOf l)) := by
          simp [pyScan, hd]
        rw [hgoal]
        exact hdef
      · have hgoal : pyScan fp (l :: rest) i s ty cur none
            = pyScan fp rest (i + 1) s ty (cur ++ [l]) none := by
          simp [pyScan, hd]
        rw [hgoal]
        exact hstep none
    | some b =>
      by_cases hblank : isBlankLine l
      · have hgoal : pyScan fp (l :: rest) i s ty cur (some b)
            = pyScan fp rest (i + 1) s ty (cur ++ [l]) (some b) := by
          simp [pyScan, hblank]
        rw [hgoal]
        exact hstep (some b)
      · by_cases hbrk : indentOf l ≤ b ∧ (isDefLine l = true ∨ indentOf l < b)
        · by_cases hd : isDefLine l
          · have hgoal : pyScan fp (l :: rest) i s ty cur (some b)
                = (if cur = [] then ([] : List CodeChunk)
                    else [CodeChunk.mk fp (joinLines cur) s i ty])
                  ++ pyScan fp rest (i + 1) (i + 1)
                      (if funcMatch l then "function" else "class") [l]
                      (some (indentOf l)) := by
              simp [pyScan, hblank, hbrk, hd]
            rw [hgoal]
            exact hdef
          · have hlt : indentOf l < b := hbrk.2.resolve_left hd
            have hgoal : pyScan fp (l :: rest) i s ty cur (some b)
                = pyScan fp rest (i + 1) s ty (cur ++ [l]) none := by
              simp [pyScan, hblank, hbrk, hd, hlt]
            rw [hgoal]
            exact hstep none
        · have hgoal : pyScan fp (l :: rest) i s ty cur (some b)
            = pyScan fp rest (i + 1) s ty (cur ++ [l]) (some b) := by
            simp [pyScan, hblank, hbrk]
          rw [hgoal]
          exact hstep (some b)

theorem scanInv_emit (ty : String) (cur : List String) (mode : Option Nat)
    (hinv : scanInv ty cur mode) (hty : ty = "function" ∨ ty = "class")
    (hnl : ∀ l ∈ cur, noNl l) :
    defChunkLines (splitLines (joinLines cur)) ∧
    (∃ l₀ rest2, splitLines (joinLines cur) = l₀ :: rest2 ∧ isDefLine l₀ = true) := by
  cases mode with
  | some b =>
    obtain ⟨l₀, inner, heq, hdef, hb, hinner⟩ := hinv hty
    subst heq
    rw [splitLines_joinLines _ (by simp) hnl]
    exact ⟨⟨l₀, inner, [], by simp, hdef, hinner, Or.inl rfl⟩, l₀, inner, rfl, hdef⟩
  | none =>
    obtain ⟨l₀, inner, t₀, ts, heq, hdef, hinner, hb1, hb2, hb3, hts⟩ := hinv hty
    subst heq
    rw [splitLines_joinLines _ (by simp) hnl]
    exact ⟨⟨l₀, inner, t₀ :: ts, rfl, hdef, hinner,
      Or.inr ⟨t₀, ts, rfl, hb1, hb2, hb3, hts⟩⟩,
      l₀, inner ++ t₀ :: ts, rfl, hdef⟩

theorem pyScan_shape (fp : String) (rem : List String) : ∀ (i s : Nat) (ty : String)
    (cur : List String) (mode : Option Nat),
    scanInv ty cur mode →
    (∀ l ∈ cur, noNl l) → (∀ l ∈ rem, noNl l) →
    (∀ c ∈ pyScan fp rem i s ty cur mode,
      (c.chunk_type = "function" ∨ c.chunk_type = "class") →
      defChunkLines (splitLines c.content)) ∧
    ((ty = "function" ∨ ty = "class") →
      ∀ c ∈ pyScan fp rem i s ty cur mode, startsWithDef c) ∧
    (∀ c ∈ (pyScan fp rem i s ty cur mode).drop 1, startsWithDef c) := by
  induction rem with
  | nil =>
    intro i s ty cur mode hinv hnlc hnlr
    by_cases hc : cur = []
    · subst hc
      simp [pyScan]
    · simp only [pyScan, if_neg hc]
      refine ⟨?_, ?_, by simp⟩
      · intro c hm hcty
        rcases List.mem_singleton.mp hm with rfl
        exact (scanInv_emit ty cur mode hinv hcty hnlc).1
      · intro hty c hm
        rcases List.mem_singleton.mp hm with rfl
        exact (scanInv_emit ty cur mode hinv hty hnlc).2
  | cons l rest ih =>
    intro i s ty cur mode hinv hnlc hnlr
    have hnlc2 : ∀ x ∈ cur ++ [l], noNl x := by
      intro x hx
      rcases List.mem_append.mp hx with h1 | h1
      · exact hnlc x h1
      · simp at h1
        subst h1
        exact hnlr _ (by simp)
    have hnlr2 : ∀ x ∈ rest, noNl x := fun x hx => hnlr x (by simp [hx])
    have hstep : ∀ (mode2 : Option Nat), scanInv ty (cur ++ [l]) mode2 →
        (∀ c ∈ pyScan fp rest (i + 1) s ty (cur ++ [l]) mode2,
          (c.chunk_type = "function" ∨ c.chunk_type = "class") →
          defChunkLines (splitLines c.content)) ∧
        ((ty = "function" ∨ ty = "class") →
          ∀ c ∈ pyScan fp rest (i + 1) s ty (cur ++ [l]) mode2, startsWithDef c) ∧
        (∀ c ∈ (pyScan fp rest (i + 1) s ty (cur ++ [l]) mode2).drop 1,
          startsWithDef c) :=
      fun mode2 hinv2 => ih (i + 1) s ty (cur ++ [l]) mode2 hinv2 hnlc2 hnlr2
    have hdefb : isDefLine l = true →
        (∀ c ∈ ((if cur = [] then ([] : List CodeChunk)
            else [CodeChunk.mk fp (joinLines cur) s i ty])
          ++ pyScan fp rest (i + 1) (i + 1)
              (if funcMatch l then "function" else "class") [l] (some (indentOf l))),
          (c.chunk_type = "function" ∨ c.chunk_type = "class") →
          defChunkLines (splitLines c.content)) ∧
        ((ty = "function" ∨ ty = "class") →
          ∀ c ∈ ((if cur = [] then ([] : List CodeChunk)
              else [CodeChunk.mk fp (joinLines cur) s i ty])
            ++ pyScan fp rest (i + 1) (i + 1)
                (if funcMatch l then "function" else "class") [l]
                (some (indentOf l))),
            startsWithDef c) ∧
        (∀ c ∈ (((if cur = [] then ([] : List CodeChunk)
            else [CodeChunk.mk fp (joinLines cur) s i ty])
          ++ pyScan fp rest (i + 1) (i + 1)
              (if funcMatch l then "function" else "class") [l]
              (some (indentOf l))).drop 1),
          startsWithDef c) := by
      intro hd
      have hty2 : (if funcMatch l then "function" else "class") = "function" ∨
          (if funcMatch l then "function" else "class") = "class" := by
        by_cases hf : funcMatch l
        · left
          simp [hf]
        · right
          simp [hf]
      have hinvn : scanInv (if funcMatch l then "function" else "class") [l]
          (some (indentOf l)) := by
        intro _
        exact ⟨l, [], rfl, hd, rfl, by simp⟩
      have hrec := ih (i + 1) (i + 1) (if funcMatch l then "function" else "class")
        [l] (some (indentOf l)) hinvn
        (by
          intro x hx
          simp at hx
          subst hx
          exact hnlr _ (by simp))
        hnlr2
      have hallrec : ∀ c ∈ pyScan fp rest (i + 1) (i + 1)
          (if funcMatch l then "function" else "class") [l] (some (indentOf l)),
          startsWithDef c := hrec.2.1 hty2
      by_cases hc : cur = []
      · subst hc
        simp only [if_pos rfl, List.nil_append]
        refine ⟨hrec.1, fun _ => hallrec, ?_⟩
        intro c hm
        exact hallrec c (List.mem_of_mem_drop hm)
      · simp only [if_neg hc, List.cons_append, List.nil_append]
        refine ⟨?_, ?_, ?_⟩
        · intro c hm hcty
          rcases List.mem_cons.mp hm with rfl | h2
          · exact (scanInv_emit ty cur mode hinv hcty hnlc).1
          · exact hrec.1 c h2 hcty
        · intro hty c hm
          rcases List.mem_cons.mp hm with rfl | h2
          · exact (scanInv_emit ty cur mode hinv hty hnlc).2
          · exact hallrec c h2
        · intro c hm
          simp only [List.drop_succ_cons, List.drop_zero] at hm
          exact hallrec c hm
    cases mode with
    | none =>
      by_cases hd : isDefLine l
      · have hgoal : pyScan fp (l :: rest) i s ty cur none
            = (if cur = [] then ([] : List CodeChunk)
                else [CodeChunk.mk fp (joinLines cur) s i ty])
              ++ pyScan fp rest (i + 1) (i + 1)
                  (if funcMatch l then "function" else "class") [l]
                  (some (indentOf l)) := by
          simp [pyScan, hd]
        rw [hgoal]
        exact hdefb hd
      · have hgoal : pyScan fp (l :: rest) i s ty cur none
            = pyScan fp rest (i + 1) s ty (cur ++ [l]) none := by
          simp [pyScan, hd]
        rw [hgoal]
        refine hstep none ?_
        intro hty
        obtain ⟨l₀, inner, t₀, ts, heq, hdef0, hinner, hb1, hb2, hb3, hts⟩ := hinv hty
        subst heq
        refine ⟨l₀, inner, t₀, ts ++ [l], by simp, hdef0, hinner, hb1, hb2, hb3, ?_⟩
        intro x hx
        rcases List.mem_append.mp hx with h1 | h1
        · exact hts x h1
        · simp at h1
          subst h1
          simpa using hd
    | some b =>
      by_cases hblank : isBlankLine l
      · have hgoal : pyScan fp (l :: rest) i s ty cur (some b)
            = pyScan fp rest (i + 1) s ty (cur ++ [l]) (some b) := by
          simp [pyScan, hblank]
        rw [hgoal]
        refine hstep (some b) ?_
        intro hty
        obtain ⟨l₀, inner, heq, hdef0, hb, hinner⟩ := hinv hty
        subst heq
        refine ⟨l₀, inner ++ [l], by simp, hdef0, hb, ?_⟩
        intro x hx
        rcases List.mem_append.mp hx with h1 | h1
        · exact hinner x h1
        · simp at h1
          subst h1
          exact Or.inl hblank
      · by_cases hbrk : indentOf l ≤ b ∧ (isDefLine l = true ∨ indentOf l < b)
        · by_cases hd : isDefLine l
          · have hgoal : pyScan fp (l :: rest) i s ty cur (some b)
                = (if cur = [] then ([] : List CodeChunk)
                    else [CodeChunk.mk fp (joinLines cur) s i ty])
                  ++ pyScan fp rest (i + 1) (i + 1)
                      (if funcMatch l then "function" else "class") [l]
                      (some (indentOf l)) := by
              simp [pyScan, hblank, hbrk, hd]
            rw [hgoal]
            exact hdefb hd
          · have hlt : indentOf l < b := hbrk.2.resolve_left hd
            have hgoal : pyScan fp (l :: rest) i s ty cur (some b)
                = pyScan fp rest (i + 1) s ty (cur ++ [l]) none := by
              simp [pyScan, hblank, hbrk, hd, hlt]
            rw [hgoal]
            refine hstep none ?_
            intro hty
            obtain ⟨l₀, inner, heq, hdef0, hb, hinner⟩ := hinv hty
            subst hb
            subst heq
            refine ⟨l₀, inner, l, [], by simp, hdef0, hinner,
              by simpa using hblank, by simpa using hd, hlt, by simp⟩
        · have hgoal : pyScan fp (l :: rest) i s ty cur (some b)
              = pyScan fp rest (i + 1) s ty (cur ++ [l]) (some b) := by
            simp [pyScan, hblank, hbrk]
          rw [hgoal]
          refine hstep (some b) ?_
          intro hty
          obtain ⟨l₀, inner, heq, hdef0, hb, hinner⟩ := hinv hty
          subst hb
          subst heq
          refine ⟨l₀, inner ++ [l], by simp, hdef0, rfl, ?_⟩
          intro x hx
          rcases List.mem_append.mp hx with h1 | h1
          · exact hinner x h1
          · simp at h1
            subst h1
            by_cases hgt : indentOf l₀ < indentOf x
            · exact Or.inr (Or.inl hgt)
            · have hle : indentOf x ≤ indentOf l₀ := by omega
              have hnd : ¬ (isDefLine x = true ∨ indentOf x < indentOf l₀) :=
                fun hor => hbrk ⟨hle, hor⟩
              push_neg at hnd
              obtain ⟨hnd1, hnd2⟩ := hnd
              exact Or.inr (Or.inr ⟨by omega, by simpa using hnd1⟩)

theorem overlapAux_shape (ov : Nat) (rl : List String) : ∀ (acc : List String) (n : Nat),
    ∃ j, j ≤ rl.length ∧ (overlapAux ov acc n rl).1 = (rl.take j).reverse ++ acc := by
  induction rl with
  | nil =>
    intro acc n
    exact ⟨0, by simp [overlapAux]⟩
  | cons ln rest ih =>
    intro acc n
    by_cases h : n + ln.length > ov
    · exact ⟨0, by simp [overlapAux, h]⟩
    · obtain ⟨j, hj, heq⟩ := ih (ln :: acc) (n + ln.length + 1)
      refine ⟨j + 1, by simp; omega, ?_⟩
      simp only [overlapAux, if_neg h]
      rw [heq]
      simp [List.take_succ_cons]

theorem overlapAux_chars (ov : Nat) (rl : List String) : ∀ (acc : List String) (n : Nat),
    n = charSum acc → (overlapAux ov acc n rl).2 = charSum (overlapAux ov acc n rl).1 := by
  induction rl with
  | nil =>
    intro acc n h
    simpa [overlapAux] using h
  | cons ln rest ih =>
    intro acc n h
    by_cases hc : n + ln.length > ov
    · simpa [overlapAux, hc] using h
    · simp only [overlapAux, if_neg hc]
      refine ih (ln :: acc) (n + ln.length + 1) ?_
      simp [charSum] at h ⊢
      omega

theorem overlapWindow_suffix (ov : Nat) (ls : List String) :
    ∃ pre, ls = pre ++ overlapWindow ov ls := by
  obtain ⟨j, hj, heq⟩ := overlapAux_shape ov ls.reverse [] 0
  refine ⟨(ls.reverse.drop j).reverse, ?_⟩
  rw [overlapWindow, heq]
  rw [List.append_nil, ← List.reverse_append, List.take_append_drop,
    List.reverse_reverse]

theorem overlapWindow_length_le (ov : Nat) (ls : List String) :
    (overlapWindow ov ls).length ≤ ls.length := by
  obtain ⟨pre, hpre⟩ := overlapWindow_suffix ov ls
  conv_rhs => rw [hpre]
  simp

theorem overlapWindow_subset (ov : Nat) (ls : List String) :
    ∀ l ∈ overlapWindow ov ls, l ∈ ls := by
  obtain ⟨pre, hpre⟩ := overlapWindow_suffix ov ls
  intro l hl
  rw [hpre]
  exact List.mem_append_right pre hl

theorem overlapWindow_chars (ov : Nat) (ls : List String) :
    (overlapAux ov [] 0 ls.reverse).2 = charSum (overlapWindow ov ls) :=
  overlapAux_chars ov ls.reverse [] 0 (by simp [charSum])

theorem sizeLoop_head (fp : String) (T O : Nat) (rem : List String) :
    ∀ (cur : List String) (chars s i : Nat) (c : CodeChunk),
    (sizeLoop fp T O cur chars s i rem).head? = some c →
    c.start_line = s ∧ ∃ more, (∀ x ∈ more, x ∈ rem) ∧ cur ++ more ≠ [] ∧
      c.content = joinLines (cur ++ more) := by
  induction rem with
  | nil =>
    intro cur chars s i c hc
    by_cases h : cur = []
    · simp [sizeLoop, h] at hc
    · simp only [sizeLoop, if_neg h, List.head?_cons, Option.some.injEq] at hc
      subst hc
      exact ⟨rfl, [], by simp, by simpa using h, by simp⟩
  | cons l rest ih =>
    intro cur chars s i c hc
    by_cases h : chars + l.length + 1 ≥ T
    · simp only [sizeLoop, if_pos h] at hc
      simp only [List.head?_cons, Option.some.injEq] at hc
      subst hc
      exact ⟨rfl, [l], by simp, by simp, rfl⟩
    · simp only [sizeLoop, if_neg h] at hc
      obtain ⟨h1, more, hmem, hne, h2⟩ := ih (cur ++ [l]) (chars + l.length + 1) s (i + 1) c hc
      refine ⟨h1, [l] ++ more, ?_, by simp, by simpa using h2⟩
      intro x hx
      rcases List.mem_append.mp hx with h3 | h3
      · simp at h3
        subst h3
        simp
      · exact List.mem_cons_of_mem l (hmem x h3)

theorem sizeLoop_recon (fp : String) (T O : Nat) (rem : List String) :
    ∀ (cur : List String) (chars s i : Nat),
    1 ≤ s → cur.length + s = i →
    (∀ l ∈ cur, noNl l) → (∀ l ∈ rem, noNl l) →
    (∀ c ∈ sizeLoop fp T O cur chars s i rem, c.file_path = fp) ∧
    List.Chain' (fun a b => a.start_line ≤ b.start_line)
      (sizeLoop fp T O cur chars s i rem) ∧
    (∀ le, s - 1 ≤ le → le + 1 ≤ i →
      ∃ segs : List (List String),
        combineChunks le (sizeLoop fp T O cur chars s i rem) = segs.map joinLines ∧
        segs.flatten = cur.drop (le + 1 - s) ++ rem ∧
        (∀ sg ∈ segs, sg ≠ [])) := by
  induction rem with
  | nil =>
    intro cur chars s i hs hlen hnlc hnlr
    by_cases hc : cur = []
    · subst hc
      refine ⟨by simp [sizeLoop], by simp [sizeLoop], ?_⟩
      intro le hle1 hle2
      exact ⟨[], by simp [sizeLoop, combineChunks], by simp, by simp⟩
    · simp only [sizeLoop, if_neg hc]
      refine ⟨by simp, by simp, ?_⟩
      intro le hle1 hle2
      rcases Nat.lt_or_ge le s with hlt | hge
      · have hle : le = s - 1 := by omega
        have hstart : s > le := by omega
        refine ⟨[cur], ?_, ?_, ?_⟩
        · simp [combineChunks, hstart]
        · have : le + 1 - s = 0 := by omega
          simp [this]
        · simp [hc]
      · rcases Nat.lt_or_ge le (i - 1) with hlt2 | hge2
        · have hnogo : ¬ ((⟨fp, joinLines cur, s, i - 1, "block"⟩ : CodeChunk).start_line > le) := by
            simp; omega
          have hend : (⟨fp, joinLines cur, s, i - 1, "block"⟩ : CodeChunk).end_line > le := by
            simp; omega
          have hsl : splitLines (joinLines cur) = cur := splitLines_joinLines cur hc hnlc
          refine ⟨[cur.drop (le + 1 - s)], ?_, by simp, ?_⟩
          · simp only [combineChunks, if_neg hnogo, if_pos hend, hsl]
            have hns : le - s + 1 < cur.length := by omega
            rw [if_pos hns]
            simp only [combineChunks, List.map_cons, List.map_nil]
            have : le - s + 1 = le + 1 - s := by omega
            rw [this]
          · intro sg hsg
            simp at hsg
            subst hsg
            have : le + 1 - s < cur.length := by omega
            intro hemp
            rw [← List.length_eq_zero] at hemp
            simp at hemp
            omega
        · have hle : le = i - 1 := by omega
          have hnogo : ¬ ((⟨fp, joinLines cur, s, i - 1, "block"⟩ : CodeChunk).start_line > le) := by
            simp; omega
          have hnogo2 : ¬ ((⟨fp, joinLines cur, s, i - 1, "block"⟩ : CodeChunk).end_line > le) := by
            simp; omega
          refine ⟨[], ?_, ?_, by simp⟩
          · simp [combineChunks, hnogo, hnogo2]
          · have : le + 1 - s = cur.length := by omega
            simp [this]
  | cons l rest ih =>
    intro cur chars s i hs hlen hnlc hnlr
    by_cases hemit : chars + l.length + 1 ≥ T
    · simp only [sizeLoop, if_pos hemit]
      have hful : cur ++ [l] ≠ [] := by simp
      have hnlf : ∀ x ∈ cur ++ [l], noNl x := by
        intro x hx
        rcases List.mem_append.mp hx with h1 | h1
        · exact hnlc x h1
        · simp at h1
          subst h1
          exact hnlr _ (by simp)
      have hov : (overlapAux O [] 0 (cur ++ [l]).reverse).1
          = overlapWindow O (cur ++ [l]) := rfl
      have hovlen : (overlapWindow O (cur ++ [l])).length ≤ cur.length + 1 := by
        have := overlapWindow_length_le O (cur ++ [l])
        simpa using this
      have hrec := ih (overlapAux O [] 0 (cur ++ [l]).reverse).1
        (overlapAux O [] 0 (cur ++ [l]).reverse).2
        (i - (overlapAux O [] 0 (cur ++ [l]).reverse).1.length + 1) (i + 1)
        (by omega)
        (by rw [hov]; omega)
        (by rw [hov]; exact fun x hx => hnlf x (overlapWindow_subset O _ x hx))
        (fun x hx => hnlr x (by simp [hx]))
      refine ⟨?_, ?_, ?_⟩
      · intro c hcm
        rcases List.mem_cons.mp hcm with rfl | h2
        · rfl
        · exact hrec.1 c h2
      · rw [List.chain'_cons']
        refine ⟨?_, hrec.2.1⟩
        intro y hy
        obtain ⟨hys, _⟩ := sizeLoop_head fp T O rest _ _ _ _ y hy
        simp only [hys]
        show s ≤ i - (overlapAux O [] 0 (cur ++ [l]).reverse).1.length + 1
        rw [hov]
        omega
      · intro le hle1 hle2
        obtain ⟨segs, hseq, hsjoin, hsne⟩ := hrec.2.2 i (by rw [hov]; omega) (by omega)
        have hsl : splitLines (joinLines (cur ++ [l])) = cur ++ [l] :=
          splitLines_joinLines _ hful hnlf
        have hdropov : (overlapAux O [] 0 (cur ++ [l]).reverse).1.drop
            (i + 1 - (i - (overlapAux O [] 0 (cur ++ [l]).reverse).1.length + 1)) = [] := by
          rw [hov]
          have : i + 1 - (i - (overlapWindow O (cur ++ [l])).length + 1)
              = (overlapWindow O (cur ++ [l])).length := by omega
          rw [this]
          simp
        rw [hdropov, List.nil_append] at hsjoin
        have hmax : max le i = i := by omega
        rcases Nat.lt_or_ge le s with hlt | hge
        · have hstart : (⟨fp, joinLines (cur ++ [l]), s, i, "block"⟩ : CodeChunk).start_line > le := by
            simp; omega
          refine ⟨(cur ++ [l]) :: segs, ?_, ?_, ?_⟩
          · simp only [combineChunks, if_pos hstart, List.map_cons]
            simp only [hmax]
            rw [hseq]
          · have : le + 1 - s = 0 := by omega
            simp only [this, List.drop_zero, List.flatten_cons, hsjoin]
            simp
          · intro sg hsg
            rcases List.mem_cons.mp hsg with rfl | h2
            · simp
            · exact hsne sg h2
        · have hnogo : ¬ ((⟨fp, joinLines (cur ++ [l]), s, i, "block"⟩ : CodeChunk).start_line > le) := by
            simp; omega
          have hend : (⟨fp, joinLines (cur ++ [l]), s, i, "block"⟩ : CodeChunk).end_line > le := by
            simp; omega
          have hns : le - s + 1 < (cur ++ [l]).length := by
            simp
            omega
          refine ⟨(cur.drop (le + 1 - s) ++ [l]) :: segs, ?_, ?_, ?_⟩
          · simp only [combineChunks, if_neg hnogo, if_pos hend, hsl, if_pos hns,
              List.map_cons, hmax]
            rw [hseq]
            have hdrople : le - s + 1 ≤ cur.length := by omega
            have : (cur ++ [l]).drop (le - s + 1) = cur.drop (le - s + 1) ++ [l] :=
              List.drop_append_of_le_length hdrople
            rw [this]
            have h2 : le - s + 1 = le + 1 - s := by omega
            rw [h2]
          · simp [hsjoin]
          · intro sg hsg
            rcases List.mem_cons.mp hsg with rfl | h2
            · simp
            · exact hsne sg h2
    · simp only [sizeLoop, if_neg hemit]
      have hrec := ih (cur ++ [l]) (chars + l.length + 1) s (i + 1)
        hs
        (by simp; omega)
        (by
          intro x hx
          rcases List.mem_append.mp hx with h1 | h1
          · exact hnlc x h1
          · simp at h1
            subst h1
            exact hnlr _ (by simp))
        (fun x hx => hnlr x (by simp [hx]))
      refine ⟨hrec.1, hrec.2.1, ?_⟩
      intro le hle1 hle2
      obtain ⟨segs, hseq, hsjoin, hsne⟩ := hrec.2.2 le hle1 (by omega)
      refine ⟨segs, hseq, ?_, hsne⟩
      rw [hsjoin]
      have : le + 1 - s ≤ cur.length := by omega
      rw [List.drop_append_of_le_length this]
      simp

theorem sizeLoop_c8 (fp : String) (T O : Nat) (rem : List String) :
    ∀ (cur : List String) (chars s i : Nat),
    chars = charSum cur →
    (∀ l ∈ cur, noNl l) → (∀ l ∈ rem, noNl l) →
    (∀ c ∈ (sizeLoop fp T O cur chars s i rem).dropLast, T ≤ c.content.length + 1) ∧
    List.Chain' (fun c1 c2 =>
      (∃ pre, splitLines c1.content = pre ++ overlapWindow O (splitLines c1.content)) ∧
      (∃ r, splitLines c2.content = overlapWindow O (splitLines c1.content) ++ r))
      (sizeLoop fp T O cur chars s i rem) := by
  induction rem with
  | nil =>
    intro cur chars s i hch hnlc hnlr
    by_cases hc : cur = []
    · simp [sizeLoop, hc]
    · simp [sizeLoop, hc]
  | cons l rest ih =>
    intro cur chars s i hch hnlc hnlr
    have hnlf : ∀ x ∈ cur ++ [l], noNl x := by
      intro x hx
      rcases List.mem_append.mp hx with h1 | h1
      · exact hnlc x h1
      · simp at h1
        subst h1
        exact hnlr _ (by simp)
    by_cases hemit : chars + l.length + 1 ≥ T
    · simp only [sizeLoop, if_pos hemit]
      have hov : (overlapAux O [] 0 (cur ++ [l]).reverse).1
          = overlapWindow O (cur ++ [l]) := rfl
      have hovch : (overlapAux O [] 0 (cur ++ [l]).reverse).2
          = charSum (overlapWindow O (cur ++ [l])) := overlapWindow_chars O (cur ++ [l])
      have hrec := ih (overlapAux O [] 0 (cur ++ [l]).reverse).1
        (overlapAux O [] 0 (cur ++ [l]).reverse).2
        (i - (overlapAux O [] 0 (cur ++ [l]).reverse).1.length + 1) (i + 1)
        (by rw [hovch, hov])
        (by rw [hov]; exact fun x hx => hnlf x (overlapWindow_subset O _ x hx))
        (fun x hx => hnlr x (by simp [hx]))
      have hsl : splitLines (joinLines (cur ++ [l])) = cur ++ [l] :=
        splitLines_joinLines _ (by simp) hnlf
      have hclen : (joinLines (cur ++ [l])).length + 1 = chars + l.length + 1 := by
        rw [joinLines_length_succ _ (by simp), hch]
        simp [charSum]
        omega
      refine ⟨?_, ?_⟩
      · intro c hcm
        by_cases hout : sizeLoop fp T O (overlapAux O [] 0 (cur ++ [l]).reverse).1
            (overlapAux O [] 0 (cur ++ [l]).reverse).2
            (i - (overlapAux O [] 0 (cur ++ [l]).reverse).1.length + 1) (i + 1) rest = []
        · rw [hout] at hcm
          simp at hcm
        · rw [List.dropLast_cons_of_ne_nil hout] at hcm
          rcases List.mem_cons.mp hcm with rfl | h2
          · show T ≤ (joinLines (cur ++ [l])).length + 1
            rw [hclen]
            exact hemit
          · exact hrec.1 c h2
      · rw [List.chain'_cons']
        refine ⟨?_, hrec.2⟩
        intro y hy
        obtain ⟨_, more, hmem, hne, hcont⟩ := sizeLoop_head fp T O rest _ _ _ _ y hy
        constructor
        · show ∃ pre, splitLines (joinLines (cur ++ [l]))
            = pre ++ overlapWindow O (splitLines (joinLines (cur ++ [l])))
          rw [hsl]
          exact overlapWindow_suffix O (cur ++ [l])
        · show ∃ r, splitLines y.content
            = overlapWindow O (splitLines (joinLines (cur ++ [l]))) ++ r
          rw [hsl, hcont, hov]
          refine ⟨more, ?_⟩
          rw [splitLines_joinLines]
          · exact hne
          · intro x hx
            rcases List.mem_append.mp hx with h1 | h1
            · exact hnlf x (overlapWindow_subset O _ x h1)
            · exact hnlr x (List.mem_cons_of_mem l (hmem x h1))
    · simp only [sizeLoop, if_neg hemit]
      exact ih (cur ++ [l]) (chars + l.length + 1) s (i + 1)
        (by rw [hch]; simp [charSum]; omega)
        hnlf
        (fun x hx => hnlr x (by simp [hx]))

theorem coversLines_start_le (cs : List CodeChunk) : ∀ a n,
    coversLines a n cs = true → ∀ c ∈ cs, a ≤ c.start_line := by
  induction cs with
  | nil => intro a n _ c hc; simp at hc
  | cons c rest ih =>
    intro a n hcov d hd
    simp only [coversLines, Bool.and_eq_true, beq_iff_eq, decide_eq_true_eq] at hcov
    obtain ⟨⟨hst, hle⟩, hrest⟩ := hcov
    rcases List.mem_cons.mp hd with rfl | hd2
    · omega
    · have := ih (c.end_line + 1) n hrest d hd2
      omega

theorem coversLines_pairwise (cs : List CodeChunk) : ∀ a n,
    coversLines a n cs = true →
    List.Pairwise (fun x y => x.start_line ≤ y.start_line) cs := by
  induction cs with
  | nil => intro a n _; simp
  | cons c rest ih =>
    intro a n hcov
    simp only [coversLines, Bool.and_eq_true, beq_iff_eq, decide_eq_true_eq] at hcov
    obtain ⟨⟨hst, hle⟩, hrest⟩ := hcov
    refine List.Pairwise.cons ?_ (ih (c.end_line + 1) n hrest)
    intro y hy
    have := coversLines_start_le rest (c.end_line + 1) n hrest y hy
    omega

theorem combineChunks_covers (cs : List CodeChunk) : ∀ a n, 1 ≤ a →
    coversLines a n cs = true →
    combineChunks (a - 1) cs = cs.map CodeChunk.content := by
  induction cs with
  | nil => intro a n _ _; simp [combineChunks]
  | cons c rest ih =>
    intro a n ha hcov
    simp only [coversLines, Bool.and_eq_true, beq_iff_eq, decide_eq_true_eq] at hcov
    obtain ⟨⟨hst, hle⟩, hrest⟩ := hcov
    have hgt : c.start_line > a - 1 := by omega
    simp only [combineChunks, if_pos hgt, List.map_cons]
    have hmax : max (a - 1) c.end_line = c.end_line := by omega
    rw [hmax]
    have hsub : c.end_line = (c.end_line + 1) - 1 := by omega
    rw [hsub, ih (c.end_line + 1) n (by omega) hrest]

theorem sortByStart_eq_self (cs : List CodeChunk)
    (h : List.Pairwise (fun x y => x.start_line ≤ y.start_line) cs) :
    sortByStart cs = cs :=
  List.Sorted.insertionSort_eq h

theorem filter_fp_eq (cs : List CodeChunk) (fp : String)
    (h : ∀ c ∈ cs, c.file_path = fp) :
    cs.filter (fun c => c.file_path == fp) = cs := by
  induction cs with
  | nil => rfl
  | cons c rest ih =>
    have hc : (c.file_path == fp) = true := by simp [h c (by simp)]
    rw [List.filter_cons, if_pos hc, ih (fun d hd => h d (by simp [hd]))]

theorem chain'_starts_pairwise (cs : List CodeChunk)
    (h : List.Chain' (fun a b => a.start_line ≤ b.start_line) cs) :
    List.Pairwise (fun x y => x.start_line ≤ y.start_line) cs := by
  haveI : IsTrans CodeChunk (fun a b => a.start_line ≤ b.start_line) :=
    ⟨fun _ _ _ h1 h2 => le_trans h1 h2⟩
  exact List.chain'_iff_pairwise.mp h

theorem joinLines_map_joinLines (segs : List (List String))
    (h : ∀ sg ∈ segs, sg ≠ []) :
    joinLines (segs.map joinLines) = joinLines segs.flatten := by
  induction segs with
  | nil => rfl
  | cons a as ih =>
    by_cases ha : as = []
    · subst ha
      simp [joinLines]
    · have hflat : as.flatten ≠ [] := by
        cases as with
        | nil => exact absurd rfl ha
        | cons b bs =>
          have hb : b ≠ [] := h b (by simp)
          simp only [List.flatten_cons]
          intro hb2
          exact hb (List.append_eq_nil.mp hb2).1
      rw [List.map_cons, joinLines_cons_of_ne_nil _ _ (by simpa using ha),
        ih (fun sg hsg => h sg (by simp [hsg])), List.flatten_cons,
        joinLines_append a as.flatten (h a (by simp)) hflat]

theorem sizeLoop_ne_nil (fp : String) (T O : Nat) (rem : List String) :
    ∀ (cur : List String) (chars s i : Nat), (cur ≠ [] ∨ rem ≠ []) →
    sizeLoop fp T O cur chars s i rem ≠ [] := by
  induction rem with
  | nil =>
    intro cur chars s i h
    rcases h with h | h
    · simp [sizeLoop, h]
    · exact absurd rfl h
  | cons l rest ih =>
    intro cur chars s i _
    by_cases hemit : chars + l.length + 1 ≥ T
    · simp [sizeLoop, hemit]
    · simp only [sizeLoop, if_neg hemit]
      exact ih (cur ++ [l]) (chars + l.length + 1) s (i + 1) (Or.inl (by simp))

theorem chunkBySizeWith_round_trip (T O : Nat) (content fp : String) :
    get_file_context (chunkBySizeWith T O content fp) fp = some content := by
  obtain ⟨hfp, hchain, hrecon⟩ := sizeLoop_recon fp T O (splitLines content)
    [] 0 1 1 (by omega) (by simp) (by simp) (splitLines_no_nl content)
  obtain ⟨segs, hseq, hsjoin, hsne⟩ := hrecon 0 (by omega) (by omega)
  have hne : sizeLoop fp T O [] 0 1 1 (splitLines content) ≠ [] :=
    sizeLoop_ne_nil fp T O (splitLines content) [] 0 1 1
      (Or.inr (splitLines_ne_nil content))
  show get_file_context (sizeLoop fp T O [] 0 1 1 (splitLines content)) fp = some content
  rw [get_file_context]
  rw [filter_fp_eq _ fp hfp]
  rw [if_neg hne]
  rw [sortByStart_eq_self _ (chain'_starts_pairwise _ hchain)]
  rw [hseq, joinLines_map_joinLines segs hsne, hsjoin]
  simp [joinLines_splitLines]

theorem extract_round_trip (content fp : String) :
    get_file_context (extract_python_chunks content fp) fp = some content := by
  obtain ⟨hcov, hjoin, hnef, hfp⟩ := pyScan_spec fp (splitLines content) 0 1 "block" []
    none (fun _ => rfl) (fun h => absurd rfl h)
  have hne : pyScan fp (splitLines content) 0 1 "block" [] none ≠ [] :=
    hnef (Or.inr (splitLines_ne_nil content))
  show get_file_context (pyScan fp (splitLines content) 0 1 "block" [] none) fp
      = some content
  rw [get_file_context]
  rw [filter_fp_eq _ fp hfp]
  rw [if_neg hne]
  rw [sortByStart_eq_self _ (coversLines_pairwise _ 1 (0 + (splitLines content).length) hcov)]
  have hcomb := combineChunks_covers _ 1 (0 + (splitLines content).length) (by omega) hcov
  simp only [Nat.sub_self] at hcomb
  rw [hcomb, hjoin]
  simp [joinLines_splitLines]

/-- C1: for every input text, the chunk sequence produced by structural
Python chunking partitions the lines of the file: ranges are ascending,
non-overlapping, and their union covers every line exactly once. -/
theorem c1_structural_chunking_partitions (content fp : String) :
    coversLines 1 (splitLines content).length (extract_python_chunks content fp) = true := by
  have h := (pyScan_spec fp (splitLines content) 0 1 "block" [] none
    (fun _ => rfl) (fun hcur => absurd rfl hcur)).1
  simpa using h

/-- C2 counterexample: on the file `def f():\n    pass\nx = 1` the chunker
does not stop at `x = 1`, a non-blank line at exactly the definition
indentation, as the claim asserts; it consumes it, producing a single
function chunk over lines 1-3 rather than a function chunk 1-2 followed by
a block chunk 3-3. -/
theorem c2_counterexample :
    (extract_python_chunks "def f():\n    pass\nx = 1" "a.py").map
      (fun c => (c.start_line, c.end_line, c.chunk_type)) = [(1, 3, "function")] ∧
    (extract_python_chunks "def f():\n    pass\nx = 1" "a.py").map
      (fun c => (c.start_line, c.end_line, c.chunk_type))
      ≠ [(1, 2, "function"), (3, 3, "block")] := by decide

/-- C2 amended: after a definition line the chunker consumes, as body, the
lines that are blank, deeper indented, or non-blank at exactly the
definition indentation without starting a definition; on reaching a
non-blank non-definition line strictly less indented it leaves body
collection but appends that line and every following line to the same
chunk, so the chunk ends only at the next definition line, which during
body collection must sit at or below the definition indentation and
afterwards may have any indentation.  Formally: every function or class
chunk is its definition line, a run of body-collected lines, and an
optional absorbed tail opened by a strictly-less-indented non-blank
non-definition line and containing no definition line (`defChunkLines`);
every chunk after the first begins with a definition line; and the 50-line
scenario yields block 1-4, function 5-24, class 25-50. -/
theorem c2_amended (content fp : String) :
    (∀ c ∈ extract_python_chunks content fp,
      (c.chunk_type = "function" ∨ c.chunk_type = "class") →
      defChunkLines (splitLines c.content)) ∧
    (∀ c ∈ (extract_python_chunks content fp).drop 1, startsWithDef c) ∧
    (splitLines c2File).length = 50 ∧
    (extract_python_chunks c2File "t.py").map
      (fun c => (c.start_line, c.end_line, c.chunk_type))
      = [(1, 4, "block"), (5, 24, "function"), (25, 50, "class")] := by
  obtain ⟨h1, h2, h3⟩ := pyScan_shape fp (splitLines content) 0 1 "block" [] none
    (fun hty => absurd hty (by decide)) (by simp) (splitLines_no_nl content)
  exact ⟨h1, h3, by decide, by decide⟩

/-- Witness for the amended C2 statement: on a file whose indented function
is followed by dedented non-definition lines, the single emitted function
chunk spans all four lines and has the proved shape, the dedented lines
forming its absorbed tail. -/
theorem c2_amended_witness :
    defChunkLines (splitLines (CodeChunk.mk "a.py"
      "    def f():\n        pass\nx = 1\ny = 2" 1 4 "function").content) :=
  (c2_amended "    def f():\n        pass\nx = 1\ny = 2" "a.py").1
    (CodeChunk.mk "a.py" "    def f():\n        pass\nx = 1\ny = 2" 1 4 "function")
    (by decide) (Or.inl rfl)

/-- C3: chunking a file structurally, by fixed-size fallback, or through the
`chunk_code` dispatcher, and then rebuilding it with the procedure of
`get_file_context`, returns exactly the original text. -/
theorem c3_round_trip (content fp : String) :
    get_file_context (extract_python_chunks content fp) fp = some content ∧
    get_file_context (chunk_by_size content fp) fp = some content ∧
    get_file_context (chunk_code content fp) fp = some content := by
  refine ⟨extract_round_trip content fp,
    chunkBySizeWith_round_trip CHUNK_SIZE CHUNK_OVERLAP content fp, ?_⟩
  unfold chunk_code
  split
  · split
    · exact chunkBySizeWith_round_trip CHUNK_SIZE CHUNK_OVERLAP content fp
    · exact extract_round_trip content fp
  · exact chunkBySizeWith_round_trip CHUNK_SIZE CHUNK_OVERLAP content fp

/-- C8 counterexample: fixed-size chunking of the file `abc\nx` with target
size `T = 4` and overlap `O = 2` emits the non-final chunk `abc`, whose
content length 3 is strictly below `T` (the running counter charges one
newline per line, but the joined content carries one newline fewer);
moreover, although `O = 2 > 0`, the two consecutive chunks share no line at
all, because the final line of the first chunk alone exceeds the overlap
budget.  The same arithmetic applies at the configured constants: any
emission whose counter lands exactly on `CHUNK_SIZE` has content length
`CHUNK_SIZE - 1`. -/
theorem c8_counterexample :
    ((chunkBySizeWith 4 2 "abc\nx" "f").map (fun c => c.content.length) = [3, 1]) ∧
    ((chunkBySizeWith 4 2 "abc\nx" "f").dropLast.map (fun c => c.content.length) = [3]) ∧
    ¬ ((4 : Nat) ≤ 3) ∧
    ((splitLines ((chunkBySizeWith 4 2 "abc\nx" "f").headI.content)).filter
      (fun ln => decide (ln ∈ splitLines ((chunkBySizeWith 4 2 "abc\nx" "f").getLast!.content)))
      = []) ∧
    (0 : Nat) < 2 := by decide

/-- C8 amended: every non-final chunk of the fixed-size fallback has
content length at least `T - 1` (the threshold counts one newline per line
while the joined text has one fewer), and each consecutive pair of chunks
is related by the overlap window of the earlier chunk: that window is a
suffix of the earlier chunk lines and an initial run of the later chunk
lines, but it may be empty even when `O > 0`, namely when the final line of
the earlier chunk alone exceeds the overlap budget. -/
theorem c8_amended (content fp : String) (T O : Nat) :
    (∀ c ∈ (chunkBySizeWith T O content fp).dropLast, T ≤ c.content.length + 1) ∧
    List.Chain' (fun c1 c2 =>
      (∃ pre, splitLines c1.content = pre ++ overlapWindow O (splitLines c1.content)) ∧
      (∃ r, splitLines c2.content = overlapWindow O (splitLines c1.content) ++ r))
      (chunkBySizeWith T O content fp) :=
  sizeLoop_c8 fp T O (splitLines content) [] 0 1 1 (by simp [charSum]) (by simp)
    (splitLines_no_nl content)

/-- Witness for the amended C8 statement at a concrete input: chunking
`ab\ncd` with target 3 and overlap 10 emits the chunk `ab` in non-final
position, whose length 2 satisfies `3 ≤ 2 + 1`. -/
theorem c8_amended_witness :
    (3 : Nat) ≤ (CodeChunk.mk "f" "ab" 1 1 "block").content.length + 1 :=
  (c8_amended "ab\ncd" "f" 3 10).1 (CodeChunk.mk "f" "ab" 1 1 "block") (by decide)

/-- C9 counterexample: on the empty input text `chunk_code` does not return
the empty chunk sequence; it returns one block chunk with empty content
spanning lines 1-1. -/
theorem c9_counterexample :
    chunk_code "" "a.py" ≠ [] ∧
    chunk_code "" "a.py" = [⟨"a.py", "", 1, 1, "block"⟩] := by decide

/-- C9 amended: for the empty input text and every file path, `chunk_code`
returns a single block chunk with empty content spanning lines 1-1.  Empty
files never reach the chunker in the pipeline, because `load_files` drops
files whose content is falsy. -/
theorem c9_amended (fp : String) :
    chunk_code "" fp = [⟨fp, "", 1, 1, "block"⟩] := by
  have hext : extract_python_chunks "" fp = [⟨fp, "", 1, 1, "block"⟩] := rfl
  have hsz : chunk_by_size "" fp = [⟨fp, "", 1, 1, "block"⟩] := rfl
  unfold chunk_code
  split
  · rw [hext]
    norm_num [CHUNK_SIZE]
  · exact hsz

/-- C4: saving any store and loading the result into a freshly constructed
store reproduces the chunk sequence exactly, field by field, and the
embedding matrix exactly (the numeric model is exact, so the floating-point
tolerance of the claim is met trivially). -/
theorem c4_save_load_round_trip (s : VectorStore) :
    (emptyStore.load s.save).chunks = s.chunks ∧
    (emptyStore.load s.save).embeddings = s.embeddings := by
  unfold VectorStore.load VectorStore.save emptyStore
  cases hemb : s.embeddings with
  | none => cases hidx : s.index <;> simp
  | some e => cases hidx : s.index <;> simp

/-- C7: the before-build half of the claim holds, but the zero-chunk build
does not: `search` on a freshly constructed store raises the no-embeddings
error, and it never silently returns results from an empty store, yet
`embed_chunks([])` itself raises `IndexError: tuple index out of range`
while reading `embeddings.shape[1]` (the encoder returns a one-dimensional
empty array for an empty batch), instead of succeeding as the claim and the
spec scenario require.  The crash happens after `self.chunks` and
`self.embeddings` were assigned, and even on that partially mutated store a
subsequent `search` still raises rather than answering. -/
theorem c7_zero_chunk_build (s2 : VectorStore) (f : String → List ℚ)
    (qv : List ℚ) (k : Nat) :
    (∃ msg, emptyStore.search qv k = Except.error msg) ∧
    (s2.embed_chunks f []).2 = some "tuple index out of range" ∧
    (s2.embed_chunks f []).1.chunks = [] ∧
    (s2.embed_chunks f []).1.embeddings = some [] ∧
    (∃ msg, (s2.embed_chunks f []).1.search qv k = Except.error msg) :=
  ⟨⟨"No embeddings loaded. Run embed_chunks first or load from disk.", rfl⟩,
    rfl, rfl, rfl,
    ⟨"No embeddings loaded. Run embed_chunks first or load from disk.", rfl⟩⟩

theorem retrieveLoop_spec (results : List (CodeChunk × ℚ)) :
    ∀ (top_k max_tokens : Nat) (seen : List String) (acc : List (CodeChunk × ℚ))
      (total : Nat),
    acc.length < top_k →
    total = (acc.map (fun p => estimate_tokens p.1.content)).sum →
    total ≤ max_tokens →
    List.Pairwise (fun p q => takeChars p.1.content 500 ≠ takeChars q.1.content 500) acc →
    (∀ p ∈ acc, takeChars p.1.content 500 ∈ seen) →
    ∃ ext, retrieveLoop top_k max_tokens seen acc total results = acc ++ ext ∧
      List.Sublist ext results ∧
      (acc ++ ext).length ≤ top_k ∧
      ((acc ++ ext).map (fun p => estimate_tokens p.1.content)).sum ≤ max_tokens ∧
      List.Pairwise (fun p q => takeChars p.1.content 500 ≠ takeChars q.1.content 500)
        (acc ++ ext) := by
  induction results with
  | nil =>
    intro k m seen acc total hlt htot hbud hpw hseen
    refine ⟨[], by simp [retrieveLoop], List.nil_sublist [], by simp; omega, ?_, by simpa⟩
    simp
    omega
  | cons p rest ih =>
    intro k m seen acc total hlt htot hbud hpw hseen
    obtain ⟨c, sc⟩ := p
    by_cases hdup : takeChars c.content 500 ∈ seen
    · simp only [retrieveLoop, if_pos hdup]
      obtain ⟨ext, heq, hsub, h3, h4, h5⟩ := ih k m seen acc total hlt htot hbud hpw hseen
      exact ⟨ext, heq, hsub.cons (c, sc), h3, h4, h5⟩
    · by_cases hbig : total + estimate_tokens c.content > m
      · simp only [retrieveLoop, if_neg hdup, if_pos hbig]
        obtain ⟨ext, heq, hsub, h3, h4, h5⟩ := ih k m
          (takeChars c.content 500 :: seen) acc total hlt htot hbud hpw
          (fun q hq => List.mem_cons_of_mem _ (hseen q hq))
        exact ⟨ext, heq, hsub.cons (c, sc), h3, h4, h5⟩
      · have hcross : List.Pairwise
            (fun p q => takeChars p.1.content 500 ≠ takeChars q.1.content 500)
            (acc ++ [(c, sc)]) := by
          rw [List.pairwise_append]
          refine ⟨hpw, by simp, ?_⟩
          intro a ha b hb
          simp at hb
          subst hb
          intro hcontr
          exact hdup (hcontr ▸ hseen a ha)
        have hsum : ((acc ++ [(c, sc)]).map
            (fun p => estimate_tokens p.1.content)).sum
            = total + estimate_tokens c.content := by
          simp [htot]
        by_cases hful : (acc ++ [(c, sc)]).length ≥ k
        · simp only [retrieveLoop, if_neg hdup, if_neg hbig, if_pos hful]
          refine ⟨[(c, sc)], rfl, ?_, ?_, ?_, hcross⟩
          · exact (List.nil_sublist rest).cons₂ (c, sc)
          · simp at hful ⊢
            omega
          · rw [hsum]
            omega
        · simp only [retrieveLoop, if_neg hdup, if_neg hbig, if_neg hful]
          obtain ⟨ext, heq, hsub, h3, h4, h5⟩ := ih k m
            (takeChars c.content 500 :: seen) (acc ++ [(c, sc)])
            (total + estimate_tokens c.content)
            (by simp at hful ⊢; omega)
            (by rw [hsum])
            (by omega)
            hcross
            (by
              intro q hq
              rcases List.mem_append.mp hq with h1 | h1
              · exact List.mem_cons_of_mem _ (hseen q h1)
              · simp at h1
                subst h1
                simp)
          refine ⟨(c, sc) :: ext, ?_, hsub.cons₂ (c, sc), ?_, ?_, ?_⟩
          · rw [heq]
            simp
          · simpa using h3
          · simpa using h4
          · simpa using h5

/-- C5: for positive `top_k` and `max_tokens`, `retrieve` keeps at most
`top_k` of the pairs produced by `search`, the total of their estimated
token counts stays within the budget, no two kept chunks share the
fingerprint of their first 500 content characters, and the kept pairs
appear in the order search produced them. -/
theorem c5_retrieve_bounds (results : List (CodeChunk × ℚ)) (top_k max_tokens : Nat)
    (hk : 0 < top_k) (hm : 0 < max_tokens) :
    (retrieveFrom results top_k max_tokens).length ≤ top_k ∧
    ((retrieveFrom results top_k max_tokens).map
      (fun p => estimate_tokens p.1.content)).sum ≤ max_tokens ∧
    List.Pairwise (fun p q => takeChars p.1.content 500 ≠ takeChars q.1.content 500)
      (retrieveFrom results top_k max_tokens) ∧
    List.Sublist (retrieveFrom results top_k max_tokens) results := by
  obtain ⟨ext, heq, hsub, hlen, hsum, hpw⟩ := retrieveLoop_spec results top_k max_tokens
    [] [] 0 hk (by simp) (by omega) (by simp) (by simp)
  rw [retrieveFrom, heq]
  simp only [List.nil_append] at *
  exact ⟨hlen, hsum, hpw, hsub⟩

/-- Witness for C5 at a concrete search result list, with `top_k = 1` and
`max_tokens = 10`. -/
theorem c5_witness :
    (retrieveFrom [(⟨"a.py", "x = 1", 1, 1, "block"⟩, (1 : ℚ))] 1 10).length ≤ 1 ∧
    ((retrieveFrom [(⟨"a.py", "x = 1", 1, 1, "block"⟩, (1 : ℚ))] 1 10).map
      (fun p => estimate_tokens p.1.content)).sum ≤ 10 ∧
    List.Pairwise (fun p q => takeChars p.1.content 500 ≠ takeChars q.1.content 500)
      (retrieveFrom [(⟨"a.py", "x = 1", 1, 1, "block"⟩, (1 : ℚ))] 1 10) ∧
    List.Sublist (retrieveFrom [(⟨"a.py", "x = 1", 1, 1, "block"⟩, (1 : ℚ))] 1 10)
      [(⟨"a.py", "x = 1", 1, 1, "block"⟩, (1 : ℚ))] :=
  c5_retrieve_bounds [(⟨"a.py", "x = 1", 1, 1, "block"⟩, (1 : ℚ))] 1 10
    (by decide) (by decide)

theorem map_getD_orderedInsert (v : List ℚ) (a : Nat) (idx : List Nat) :
    (List.orderedInsert (fun i j => v.getD i 0 ≤ v.getD j 0) a idx).map
        (fun i => v.getD i 0)
      = List.orderedInsert (fun x y : ℚ => x ≤ y) (v.getD a 0)
          (idx.map (fun i => v.getD i 0)) := by
  induction idx with
  | nil => rfl
  | cons b rest ih =>
    simp only [List.orderedInsert, List.map_cons]
    by_cases h : v.getD a 0 ≤ v.getD b 0
    · rw [if_pos h, if_pos h]
      simp
    · rw [if_neg h, if_neg h, List.map_cons, ih]

theorem map_getD_range (v : List ℚ) :
    (List.range v.length).map (fun i => v.getD i 0) = v := by
  induction v with
  | nil => rfl
  | cons a rest ih =>
    rw [List.length_cons, List.range_succ_eq_map, List.map_cons, List.map_map]
    have hcomp : ((fun i => (a :: rest).getD i 0) ∘ (fun n => n + 1))
        = fun i => rest.getD i 0 := by
      funext i
      rfl
    rw [hcomp, ih]
    rfl

theorem map_getD_argsort (v : List ℚ) :
    (argsortQ v).map (fun i => v.getD i 0)
      = List.insertionSort (fun x y : ℚ => x ≤ y) v := by
  rw [argsortQ]
  conv_rhs => rw [← map_getD_range v]
  generalize List.range v.length = idx
  induction idx with
  | nil => rfl
  | cons b rest ih =>
    simp only [List.insertionSort, List.map_cons]
    rw [map_getD_orderedInsert, ih]

theorem argsort_pairwise (v : List ℚ) :
    List.Pairwise (fun i j => v.getD i 0 ≤ v.getD j 0) (argsortQ v) := by
  haveI h1 : IsTotal Nat (fun i j => v.getD i 0 ≤ v.getD j 0) :=
    ⟨fun a b => le_total (v.getD a 0) (v.getD b 0)⟩
  haveI h2 : IsTrans Nat (fun i j => v.getD i 0 ≤ v.getD j 0) :=
    ⟨fun _ _ _ hab hbc => le_trans hab hbc⟩
  exact List.sorted_insertionSort _ _

theorem drop_reverse_take (l : List Nat) (k : Nat) :
    (l.drop (l.length - k)).reverse = l.reverse.take k := by
  rw [List.reverse_drop]
  rcases le_or_lt k l.length with h | h
  · congr 1
    omega
  · have h1 : l.length - (l.length - k) = l.length := by omega
    rw [h1, ← List.length_reverse l, List.take_length,
      List.take_of_length_le (by rw [List.length_reverse]; omega)]

theorem negSlice_reverse_take (k : Nat) (idx : List Nat) (hk : 1 ≤ k) :
    (negSlice k idx).reverse = idx.reverse.take k := by
  rw [negSlice, if_neg (by omega)]
  exact drop_reverse_take idx k

theorem pairwise_ge_of_take_reverse (v : List ℚ) (idx : List Nat) (k : Nat)
    (h : List.Pairwise (fun i j => v.getD i 0 ≤ v.getD j 0) idx) :
    List.Pairwise (fun i j => v.getD j 0 ≤ v.getD i 0) (idx.reverse.take k) := by
  refine List.Pairwise.sublist (List.take_sublist k idx.reverse) ?_
  rw [List.pairwise_reverse]
  exact h

theorem searchBrute_pairwise (chunks : List CodeChunk) (sims : List ℚ) (k : Nat)
    (hk : 1 ≤ k) :
    List.Pairwise (fun a b : CodeChunk × ℚ => b.2 ≤ a.2)
      (searchBrute chunks sims k) := by
  rw [searchBrute, negSlice_reverse_take k _ hk, List.pairwise_map]
  exact pairwise_ge_of_take_reverse sims _ k (argsort_pairwise sims)

theorem faissSearch_pairwise (chunks : List CodeChunk) (rows : List (List ℚ))
    (qv : List ℚ) (k : Nat) :
    List.Pairwise (fun a b : CodeChunk × ℚ => b.2 ≤ a.2)
      (faissSearch chunks rows qv k) := by
  rw [faissSearch, List.pairwise_map]
  exact pairwise_ge_of_take_reverse _ _ k (argsort_pairwise _)

theorem searchBrute_scores (chunks : List CodeChunk) (sims : List ℚ) (k : Nat)
    (hk : 1 ≤ k) :
    (searchBrute chunks sims k).map Prod.snd
      = (List.insertionSort (fun x y : ℚ => x ≤ y) sims).reverse.take k := by
  rw [searchBrute, negSlice_reverse_take k _ hk, List.map_map]
  have hcomp : (Prod.snd ∘ fun j => (chunks.getD j default, sims.getD j 0))
      = fun j => sims.getD j 0 := rfl
  rw [hcomp, ← map_getD_argsort sims]
  simp [List.map_take, List.map_reverse]

/-- C6: on a populated, non-empty store, `search` returns its results with
scores sorted in non-increasing order, and in the numpy brute-force branch
(no FAISS structure) the returned scores are exactly the `top_k` largest
inner products over all stored vectors, in descending order. -/
theorem c6_search_sorted_topk (s : VectorStore) (qv : List ℚ) (top_k : Nat)
    (embs : List (List ℚ)) (he : s.embeddings = some embs) (hc : s.chunks ≠ [])
    (hk : 1 ≤ top_k) :
    ∃ res, s.search qv top_k = Except.ok res ∧
      List.Pairwise (fun a b : CodeChunk × ℚ => b.2 ≤ a.2) res ∧
      (s.index = none →
        res.map Prod.snd
          = (List.insertionSort (fun x y : ℚ => x ≤ y)
              (embs.map (fun r => dotQ r qv))).reverse.take top_k) := by
  have hcond : ¬ (s.embeddings.isNone ∨ s.chunks.length = 0) := by
    rw [he]
    simp [List.length_eq_zero, hc]
  cases hidx : s.index with
  | some rows =>
    refine ⟨faissSearch s.chunks rows qv (min top_k s.chunks.length), ?_, ?_, ?_⟩
    · rw [VectorStore.search, if_neg hcond, hidx]
    · exact faissSearch_pairwise s.chunks rows qv _
    · intro hnone
      exact absurd hnone (by simp)
  | none =>
    refine ⟨searchBrute s.chunks (embs.map (fun r => dotQ r qv)) top_k, ?_, ?_, ?_⟩
    · rw [VectorStore.search, if_neg hcond, hidx, he]
    · exact searchBrute_pairwise _ _ top_k hk
    · intro _
      exact searchBrute_scores _ _ top_k hk

/-- Witness for C6 on a concrete two-chunk store without a FAISS index. -/
theorem c6_witness :
    ∃ res, (VectorStore.mk
        [⟨"a.py", "x = 1", 1, 1, "block"⟩, ⟨"a.py", "y = 2", 2, 2, "block"⟩]
        (some [[1], [2]]) none).search [1] 1 = Except.ok res ∧
      List.Pairwise (fun a b : CodeChunk × ℚ => b.2 ≤ a.2) res ∧
      ((VectorStore.mk
        [⟨"a.py", "x = 1", 1, 1, "block"⟩, ⟨"a.py", "y = 2", 2, 2, "block"⟩]
        (some [[1], [2]]) none).index = none →
        res.map Prod.snd
          = (List.insertionSort (fun x y : ℚ => x ≤ y)
              (([[1], [2]] : List (List ℚ)).map (fun r => dotQ r [1]))).reverse.take 1) :=
  c6_search_sorted_topk _ [1] 1 [[1], [2]] rfl (by decide) (by decide)

/-- C10: `load_files` yields a pair only when the read of the file succeeded
and produced a non-empty string, so files that fail to read or decode and
files with empty content are silently excluded, and every chunk built by
`ingest_repository` comes from a loaded file with non-empty content. -/
theorem c10_load_files_nonempty (files : List RepoFile) :
    (∀ pr ∈ load_files files,
      ∃ f ∈ files, f.readResult = some pr.2 ∧ pr.2 ≠ "" ∧ pr.1 = f.relPath) ∧
    (∀ c ∈ ingest_repository files,
      ∃ pr ∈ load_files files, pr.2 ≠ "" ∧ c ∈ chunk_code pr.2 pr.1) := by
  have hyield : ∀ pr ∈ load_files files,
      ∃ f ∈ files, f.readResult = some pr.2 ∧ pr.2 ≠ "" ∧ pr.1 = f.relPath := by
    intro pr hpr
    rw [load_files, List.mem_filterMap] at hpr
    obtain ⟨f, hf, hg⟩ := hpr
    by_cases h1 : ¬ is_supported_file f
    · rw [if_pos h1] at hg
      exact absurd hg (by simp)
    · rw [if_neg h1] at hg
      by_cases h2 : is_file_too_large f
      · rw [if_pos h2] at hg
        exact absurd hg (by simp)
      · rw [if_neg h2] at hg
        cases hr : f.readResult with
        | none =>
          rw [hr] at hg
          exact absurd hg (by simp)
        | some content =>
          rw [hr] at hg
          dsimp only at hg
          by_cases h3 : content ≠ ""
          · rw [if_pos h3] at hg
            have hpr2 : pr = (f.relPath, content) := by
              simpa using hg.symm
            subst hpr2
            exact ⟨f, hf, hr, h3, rfl⟩
          · rw [if_neg h3] at hg
            exact absurd hg (by simp)
  refine ⟨hyield, ?_⟩
  intro c hc
  rw [ingest_repository, List.mem_flatten] at hc
  obtain ⟨cs, hcs, hcmem⟩ := hc
  rw [List.mem_map] at hcs
  obtain ⟨pr, hpr, rfl⟩ := hcs
  obtain ⟨f, _, _, hne, _⟩ := hyield pr hpr
  exact ⟨pr, hpr, hne, hcmem⟩

/-- Witness for C10 on a one-file repository whose file reads to a
non-empty string. -/
theorem c10_witness :
    ∃ f ∈ [RepoFile.mk "a.py" (some 10) (some "x = 1")],
      f.readResult = some ("a.py", "x = 1").2 ∧ ("a.py", "x = 1").2 ≠ "" ∧
      ("a.py", "x = 1").1 = f.relPath :=
  (c10_load_files_nonempty [RepoFile.mk "a.py" (some 10) (some "x = 1")]).1
    ("a.py", "x = 1") (by decide)
